import Mathlib

/-!
Verification development for a peg solitaire solver (Go).

The program encodes the 7×7 English-cross board in the low 49 bits of a
`uint64` (bit index = row*7 + col), builds a table of 76 jump moves as bitmask
triples, and runs a recursive reverse search from the goal board towards the
initial board, memoised by a set of seen boards.  On success every recursive
frame appends its board to the global `Solution` slice, which the caller had
seeded with the initial board.

The embedding below translates the source functions into Lean over `Nat`
(every value manipulated is below `2^49`, so `Nat` bitwise operations agree
with Go's `uint64` operations; no overflow can occur).  Recursion in Go is
unbounded; here `searchFuel` takes an explicit depth budget, with fuel
exhaustion modelled by `none`.  Fuel adequacy is proven separately.
-/

/-- Go constant `VALID_BOARD_CELLS`: a ball in every available slot. -/
def VALID_BOARD_CELLS : Nat := 124141734710812

/-- Go constant `INITIAL_BOARD`: one marble free in center. -/
def INITIAL_BOARD : Nat := 124141717933596

/-- Go constant `GOAL_BOARD`: one marble in center. -/
def GOAL_BOARD : Nat := 16777216

/-- Go struct `Move`: `after` is the peg added by the (reverse) move, `before`
holds the two pegs removed by it, `all` holds all three involved pegs. -/
structure Move where
  after : Nat
  before : Nat
  all : Nat
deriving Repr, DecidableEq

/-- Go `createMoves(bit1, bit2, bit3, moves)`: appends the two moves for a
continuous line of three cells. -/
def createMoves (bit1 bit2 bit3 : Nat) (moves : List Move) : List Move :=
  let m1 : Move :=
    ⟨1 <<< bit1, (1 <<< bit2) ||| (1 <<< bit3),
      (1 <<< bit1) ||| (1 <<< bit2) ||| (1 <<< bit3)⟩
  let m2 : Move :=
    ⟨1 <<< bit3, (1 <<< bit2) ||| (1 <<< bit1),
      (1 <<< bit1) ||| (1 <<< bit2) ||| (1 <<< bit3)⟩
  moves ++ [m1, m2]

/-- Go `startsX`: all starting positions in west-east direction. -/
def startsX : List Nat :=
  [2, 9, 14, 15, 16, 17, 18, 21, 22, 23, 24, 25, 28, 29, 30, 31, 32, 37, 44]

/-- Go `startsY`: all starting positions in north-south direction. -/
def startsY : List Nat :=
  [2, 3, 4, 9, 10, 11, 14, 15, 16, 17, 18, 19, 20, 23, 24, 25, 30, 31, 32]

/-- The move table built in `main` before the shuffle: for each horizontal
start `x` the moves for `(x, x+1, x+2)` and for each vertical start `y` the
moves for `(y, y+7, y+14)`. -/
def Moves : List Move :=
  let mx := startsX.foldl (fun ms x => createMoves x (x + 1) (x + 2) ms) []
  startsY.foldl (fun ms y => createMoves y (y + 7) (y + 14) ms) mx

/-- The legality test of `search`: `(move.before & board) == 0 &&
(move.after & board) != 0`. -/
def legalRev (m : Move) (board : Nat) : Bool :=
  (m.before &&& board == 0) && (m.after &&& board != 0)

/-- The mutable global state of the Go program during `search`: the keys of
the `seenBoards` map (inserted-first at the head) and the `Solution` slice. -/
structure SearchState where
  seen : List Nat
  sol : List Nat
deriving Repr, DecidableEq

/-- The body of Go `search`: iterate over the (already shuffled) move table;
for each legal reverse move compute `newBoard = board ^ move.all`; skip seen
boards; otherwise mark seen and either finish (reaching `INITIAL_BOARD`) or
recurse via `deep`; every successful return appends `board` to `Solution`.
The recursive call is abstracted as `deep` so that the loop is structurally
recursive in the remaining move list. -/
def searchLoop (deep : Nat → SearchState → Option (Bool × SearchState)) :
    List Move → Nat → SearchState → Option (Bool × SearchState)
  | [], _, st => some (false, st)
  | m :: rest, board, st =>
    if legalRev m board then
      let newBoard := board ^^^ m.all
      if st.seen.contains newBoard then
        searchLoop deep rest board st
      else
        if newBoard = INITIAL_BOARD then
          some (true, ⟨newBoard :: st.seen, st.sol ++ [board]⟩)
        else
          match deep newBoard ⟨newBoard :: st.seen, st.sol⟩ with
          | none => none
          | some (true, st2) => some (true, ⟨st2.seen, st2.sol ++ [board]⟩)
          | some (false, st2) => searchLoop deep rest board st2
    else
      searchLoop deep rest board st

/-- Go `search(board)` with an explicit recursion-depth budget: `none` means
the budget was exhausted (the Go recursion is unbounded; fuel adequacy is
proven below). -/
def searchFuel (moves : List Move) : Nat → Nat → SearchState → Option (Bool × SearchState)
  | 0, _, _ => none
  | fuel + 1, board, st => searchLoop (searchFuel moves fuel) moves board st

/-- The state right before `main` calls `search`: `seenBoards` empty and
`Solution` seeded with `INITIAL_BOARD`. -/
def initState : SearchState := ⟨[], [INITIAL_BOARD]⟩

/-- The search invocation of `main`: `Solution = append(Solution,
INITIAL_BOARD)` followed by `search(GOAL_BOARD)`, for a given (shuffled)
move table. -/
def run (moves : List Move) (fuel : Nat) : Option (Bool × SearchState) :=
  searchFuel moves fuel GOAL_BOARD initState

/-- The `Solution` slice that `main` goes on to print: the boolean result of
`search` is discarded and the slice is printed unconditionally. -/
def mainPrinted (moves : List Move) (fuel : Nat) : Option (List Nat) :=
  match run moves fuel with
  | none => none
  | some (_, st) => some st.sol

/-- Number of set bits among the low `k` bits. -/
def pegCountAux : Nat → Nat → Nat
  | 0, _ => 0
  | k + 1, n => n % 2 + pegCountAux k (n / 2)

/-- Number of set bits of a `uint64` value (the peg count of a board). -/
def pegCount (n : Nat) : Nat := pegCountAux 64 n

/-- Value of a binary digit string (most significant first), as computed by
Go `strconv.ParseUint(s, 2, 64)` on a string of `0`/`1` digits. -/
def binVal : List Char → Nat → Nat
  | [], acc => acc
  | c :: cs, acc => binVal cs (acc * 2 + (if c = '1' then 1 else 0))

/-- Go `strconv.ParseUint(s, 2, 64)` restricted to valid binary strings. -/
def parseBin (s : String) : Nat := binVal s.toList 0

/-- The inner 16-column row loop of the solution printer: starting at solution
index `i` with loop counter `k` and `cnt` iterations left (initially 16),
returns the list of solution indices passed to `printLine` together with the
final value of `k` (the loop breaks, after incrementing `k`, exactly when
`i + k` equals `n - 1`, the last index of the solution slice of length `n`). -/
def rowAccess (n i : Nat) : Nat → Nat → List Nat × Nat
  | k, 0 => ([], k)
  | k, cnt + 1 =>
    let idx := i + k
    if idx = n - 1 then ([idx], k + 1)
    else
      let r := rowAccess n i (k + 1) cnt
      (idx :: r.1, r.2)

/-- The outer loop of the solution printer over a solution slice of length
`n`: runs rows of 16 boards starting at index `i` and advances `i` by the
final `k` of the row (`i = i + k - 1` followed by the `i++` of the `for`).
The first argument is a structural bound on the number of outer iterations;
`n` iterations always suffice since `i` strictly increases. -/
def solAccess (n : Nat) : Nat → Nat → List Nat
  | 0, _ => []
  | f + 1, i =>
    if i < n then
      let r := rowAccess n i 0 16
      r.1 ++ solAccess n f (i + r.2)
    else []

/-- All solution indices passed to `printLine` when printing a solution slice
of length `n` (each row of the board repeats the same indices, so one pass
per block suffices for the set of accessed indices). -/
def printAccesses (n : Nat) : List Nat := solAccess n n 0

/-- A concrete shuffle outcome used to exercise the search: a sublist of the
76-entry move table under which the deterministic search succeeds quickly. -/
def wmoves : List Move := [
  ⟨2048, 33816576, 33818624⟩,
  ⟨549755813888, 4328521728, 554084335616⟩,
  ⟨1073741824, 17729624997888, 17730698739712⟩,
  ⟨268435456, 2113536, 270548992⟩,
  ⟨512, 3072, 3584⟩,
  ⟨1073741824, 805306368, 1879048192⟩,
  ⟨16777216, 12582912, 29360128⟩,
  ⟨2048, 33816576, 33818624⟩,
  ⟨8388608, 66048, 8454656⟩,
  ⟨65536, 1082130432, 1082195968⟩,
  ⟨524288, 393216, 917504⟩,
  ⟨131072, 786432, 917504⟩,
  ⟨549755813888, 4328521728, 554084335616⟩,
  ⟨33554432, 554050781184, 554084335616⟩,
  ⟨1073741824, 805306368, 1879048192⟩,
  ⟨33554432, 201326592, 234881024⟩,
  ⟨8388608, 66048, 8454656⟩,
  ⟨4294967296, 25769803776, 30064771072⟩,
  ⟨262144, 1572864, 1835008⟩,
  ⟨1024, 16908288, 16909312⟩,
  ⟨4294967296, 70918499991552, 70922794958848⟩,
  ⟨16777216, 132096, 16909312⟩,
  ⟨262144, 2064, 264208⟩,
  ⟨65536, 1082130432, 1082195968⟩,
  ⟨2147483648, 35459249995776, 35461397479424⟩,
  ⟨16, 12, 28⟩,
  ⟨536870912, 3221225472, 3758096384⟩,
  ⟨131072, 98304, 229376⟩,
  ⟨4294967296, 3221225472, 7516192768⟩,
  ⟨33554432, 554050781184, 554084335616⟩,
  ⟨262144, 2064, 264208⟩]

/-- The board layout strings of the alternative source file that defines the
constants via `strconv.ParseUint(..., 2, 64)`. -/
def validCellsStr : String :=
  "0" ++ "0011100" ++ "0011100" ++ "1111111" ++ "1111111" ++ "1111111" ++
    "0011100" ++ "0011100"

/-- Layout string parsed into `INITIAL_BOARD` by the alternative source. -/
def initialBoardStr : String :=
  "0" ++ "0011100" ++ "0011100" ++ "1111111" ++ "1110111" ++ "1111111" ++
    "0011100" ++ "0011100"

/-- Layout string parsed into `GOAL_BOARD` by the alternative source. -/
def goalBoardStr : String :=
  "0" ++ "0000000" ++ "0000000" ++ "0001000" ++ "0000000" ++ "0000000" ++
    "0000000" ++ "0000000"

set_option maxRecDepth 10000

/-- The cross-shaped cell predicate of the claim: bit `i = row*7 + col` lies
on the board exactly when `i < 49` and the cell is in the middle three rows
or the middle three columns. -/
def crossCell (i : Nat) : Prop :=
  i < 49 ∧ (2 ≤ i / 7 ∧ i / 7 ≤ 4 ∨ 2 ≤ i % 7 ∧ i % 7 ≤ 4)

instance (i : Nat) : Decidable (crossCell i) := by
  unfold crossCell; infer_instance

/-- Bits 49 and above of the three constants are clear. -/
theorem constants_lt_two_pow : ∀ i, 49 ≤ i →
    VALID_BOARD_CELLS.testBit i = false ∧ INITIAL_BOARD.testBit i = false ∧
    GOAL_BOARD.testBit i = false := by
  intro i hi
  have hpow : (2 : Nat) ^ 49 ≤ 2 ^ i := Nat.pow_le_pow_right (by norm_num) hi
  refine ⟨?_, ?_, ?_⟩ <;>
    exact Nat.testBit_lt_two_pow (lt_of_lt_of_le (by decide) hpow)

/-- C6: the three hard-coded constants encode the standard cross board in the
layout `bit index = row*7 + col`: `VALID_BOARD_CELLS` has exactly the 33
cross cells set, `GOAL_BOARD` only the center bit `24 = 3*7 + 3`, and
`INITIAL_BOARD` is `VALID_BOARD_CELLS` with bit 24 cleared; moreover the
decimal constants agree with the parsed layout strings of the alternative
source file. -/
theorem board_constants_spec :
    (∀ i, VALID_BOARD_CELLS.testBit i = decide (crossCell i)) ∧
    pegCount VALID_BOARD_CELLS = 33 ∧
    (∀ i, GOAL_BOARD.testBit i = decide (i = 24)) ∧
    24 = 3 * 7 + 3 ∧
    VALID_BOARD_CELLS = 124141734710812 ∧
    GOAL_BOARD = 16777216 ∧
    INITIAL_BOARD = 124141717933596 ∧
    (∀ i, INITIAL_BOARD.testBit i =
      (VALID_BOARD_CELLS.testBit i && decide (i ≠ 24))) ∧
    pegCount INITIAL_BOARD = 33 - 1 ∧
    parseBin validCellsStr = VALID_BOARD_CELLS ∧
    parseBin initialBoardStr = INITIAL_BOARD := by
  have hb : ∀ i < 49,
      VALID_BOARD_CELLS.testBit i = decide (crossCell i) ∧
      GOAL_BOARD.testBit i = decide (i = 24) ∧
      INITIAL_BOARD.testBit i =
        (VALID_BOARD_CELLS.testBit i && decide (i ≠ 24)) := by decide
  refine ⟨?_, by decide, ?_, by decide, by decide, by decide, by decide, ?_,
    by decide, by decide, by decide⟩
  · intro i
    rcases lt_or_ge i 49 with h | h
    · exact (hb i h).1
    · rw [(constants_lt_two_pow i h).1]
      exact (decide_eq_false fun hc => absurd hc.1 (Nat.not_lt.2 h)).symm
  · intro i
    rcases lt_or_ge i 49 with h | h
    · exact (hb i h).2.1
    · rw [(constants_lt_two_pow i h).2.2]
      exact (decide_eq_false fun hc => by omega).symm
  · intro i
    rcases lt_or_ge i 49 with h | h
    · exact (hb i h).2.2
    · rw [(constants_lt_two_pow i h).2.1, (constants_lt_two_pow i h).1]
      rfl

/-- C5: the generator run over the two 19-entry start lists produces exactly
76 moves, and every generated move has a single-bit `after`, a two-bit
`before`, disjoint from `after`, with `all` their union (and all three masks
inside the valid cells). -/
theorem move_table_spec :
    Moves.length = 76 ∧ startsX.length = 19 ∧ startsY.length = 19 ∧
    ∀ m ∈ Moves, pegCount m.after = 1 ∧ pegCount m.before = 2 ∧
      m.after &&& m.before = 0 ∧ m.all = m.after ||| m.before := by decide

/-- Witness for C5 at the first generated move, `createMoves 2 3 4`. -/
theorem move_table_spec_witness :
    pegCount (Move.mk 4 24 28).after = 1 ∧ pegCount (Move.mk 4 24 28).before = 2 ∧
    (Move.mk 4 24 28).after &&& (Move.mk 4 24 28).before = 0 ∧
    (Move.mk 4 24 28).all = (Move.mk 4 24 28).after ||| (Move.mk 4 24 28).before :=
  move_table_spec.2.2.2 ⟨4, 24, 28⟩ (by decide)

/-- Divergence note (not part of a claim): in the alternative source file the
goal-board layout string parses to `2^31` — the cell at row 4, column 3, one
row below the center — even though its comment says "one marble in center"
and the single-file version uses `16777216 = 2^24`. -/
theorem goal_layout_string_divergence :
    parseBin goalBoardStr = 2147483648 ∧
    (2147483648 : Nat) = 2 ^ 31 ∧ 31 = 4 * 7 + 3 ∧
    parseBin goalBoardStr ≠ GOAL_BOARD := by decide

/-- One backward link of the emitted solution path: `x` is obtained from `y`
by one legal reverse move of the table, i.e. the search stepped from board
`y` to `newBoard = x`. -/
def StepBack (moves : List Move) (x y : Nat) : Prop :=
  ∃ m ∈ moves, legalRev m y = true ∧ x = y ^^^ m.all

/-- XOR of two submasks of `v` is a submask of `v`. -/
theorem and_valid_xor {a b v : Nat} (ha : a &&& v = a) (hb : b &&& v = b) :
    (a ^^^ b) &&& v = a ^^^ b := by
  apply Nat.eq_of_testBit_eq
  intro i
  have ha' := congrArg (fun n => n.testBit i) ha
  have hb' := congrArg (fun n => n.testBit i) hb
  simp only [Nat.testBit_and, Nat.testBit_xor] at ha' hb' ⊢
  revert ha' hb'
  cases a.testBit i <;> cases b.testBit i <;> cases v.testBit i <;> decide

/-- State evolution of the search loop: the seen set only grows, the solution
is only appended to, and a failing call leaves the solution unchanged. -/
theorem searchLoop_state (deep : Nat → SearchState → Option (Bool × SearchState))
    (hdeep : ∀ b st r st', deep b st = some (r, st') →
      (∃ e, st'.seen = e ++ st.seen) ∧ (∃ s, st'.sol = st.sol ++ s) ∧
      (r = false → st'.sol = st.sol)) :
    ∀ rem board st r st', searchLoop deep rem board st = some (r, st') →
      (∃ e, st'.seen = e ++ st.seen) ∧ (∃ s, st'.sol = st.sol ++ s) ∧
      (r = false → st'.sol = st.sol) := by
  intro rem
  induction rem with
  | nil =>
    intro board st r st' h
    simp only [searchLoop, Option.some.injEq, Prod.mk.injEq] at h
    obtain ⟨rfl, rfl⟩ := h
    exact ⟨⟨[], rfl⟩, ⟨[], by simp⟩, fun _ => rfl⟩
  | cons m rest ih =>
    intro board st r st' h
    simp only [searchLoop] at h
    by_cases hleg : legalRev m board = true
    · simp only [hleg, if_true] at h
      by_cases hseen : st.seen.contains (board ^^^ m.all) = true
      · simp only [hseen, if_true] at h
        exact ih board st r st' h
      · simp only [hseen, if_false, Bool.false_eq_true] at h
        by_cases hini : board ^^^ m.all = INITIAL_BOARD
        · simp only [hini, if_true, Option.some.injEq, Prod.mk.injEq] at h
          obtain ⟨rfl, rfl⟩ := h
          exact ⟨⟨[INITIAL_BOARD], by simp [hini]⟩, ⟨[board], rfl⟩,
            fun hf => by simp at hf⟩
        · simp only [hini, if_false] at h
          rcases hd : deep (board ^^^ m.all) ⟨(board ^^^ m.all) :: st.seen, st.sol⟩
            with _ | ⟨b2, st2⟩
          · rw [hd] at h; simp at h
          · rw [hd] at h
            obtain ⟨⟨e, he⟩, ⟨s, hs⟩, hf⟩ :=
              hdeep _ _ _ _ hd
            cases b2 with
            | true =>
              simp only [Option.some.injEq, Prod.mk.injEq] at h
              obtain ⟨rfl, rfl⟩ := h
              refine ⟨⟨e ++ [board ^^^ m.all], by simpa using he⟩,
                ⟨s ++ [board], by simp [hs]⟩, fun hf' => by simp at hf'⟩
            | false =>
              obtain ⟨⟨e2, he2⟩, ⟨s2, hs2⟩, hf2⟩ := ih board st2 r st' h
              have hsol2 : st2.sol = st.sol := hf rfl
              refine ⟨⟨e2 ++ e ++ [board ^^^ m.all], ?_⟩,
                ⟨s2, by rw [hs2, hsol2]⟩, fun hr => by rw [hf2 hr, hsol2]⟩
              rw [he2, he]; simp
    · simp only [hleg, if_false, Bool.false_eq_true] at h
      exact ih board st r st' h

/-- State evolution lifted to the fuelled search. -/
theorem searchFuel_state (moves : List Move) :
    ∀ fuel board st r st', searchFuel moves fuel board st = some (r, st') →
      (∃ e, st'.seen = e ++ st.seen) ∧ (∃ s, st'.sol = st.sol ++ s) ∧
      (r = false → st'.sol = st.sol) := by
  intro fuel
  induction fuel with
  | zero => intro board st r st' h; simp [searchFuel] at h
  | succ f ih =>
    intro board st r st' h
    exact searchLoop_state (searchFuel moves f) ih moves board st r st' h

/-- Invariant carried by the search state: the seen list has no duplicates
(boards are inserted only when absent) and every recorded board — seen or in
the solution — is a submask of the valid cells. -/
def SeenInv (st : SearchState) : Prop :=
  st.seen.Nodup ∧ (∀ b ∈ st.seen, b &&& VALID_BOARD_CELLS = b) ∧
    (∀ b ∈ st.sol, b &&& VALID_BOARD_CELLS = b)

/-- The loop preserves `SeenInv` whenever all moves of the table have masks
inside the valid cells and the current board is a submask of them. -/
theorem searchLoop_inv (deep : Nat → SearchState → Option (Bool × SearchState))
    (moves : List Move)
    (hm : ∀ m ∈ moves, m.all &&& VALID_BOARD_CELLS = m.all)
    (hdeep : ∀ b st r st', deep b st = some (r, st') →
      b &&& VALID_BOARD_CELLS = b → SeenInv st → SeenInv st') :
    ∀ rem, rem ⊆ moves → ∀ board st r st',
      searchLoop deep rem board st = some (r, st') →
      board &&& VALID_BOARD_CELLS = board → SeenInv st → SeenInv st' := by
  intro rem
  induction rem with
  | nil =>
    intro _ board st r st' h hb hinv
    simp only [searchLoop, Option.some.injEq, Prod.mk.injEq] at h
    obtain ⟨rfl, rfl⟩ := h
    exact hinv
  | cons m rest ih =>
    intro hsub board st r st' h hb hinv
    have hmsub : rest ⊆ moves := fun x hx => hsub (List.mem_cons_of_mem m hx)
    have hmm : m ∈ moves := hsub (List.mem_cons_self m rest)
    simp only [searchLoop] at h
    by_cases hleg : legalRev m board = true
    · simp only [hleg, if_true] at h
      have hnb : (board ^^^ m.all) &&& VALID_BOARD_CELLS = board ^^^ m.all :=
        and_valid_xor hb (hm m hmm)
      by_cases hseen : st.seen.contains (board ^^^ m.all) = true
      · simp only [hseen, if_true] at h
        exact ih hmsub board st r st' h hb hinv
      · simp only [hseen, if_false, Bool.false_eq_true] at h
        have hnotmem : (board ^^^ m.all) ∉ st.seen := by
          simp at hseen; exact hseen
        have hinv1 : SeenInv ⟨(board ^^^ m.all) :: st.seen, st.sol⟩ :=
          ⟨List.nodup_cons.2 ⟨hnotmem, hinv.1⟩,
            fun b hbm => by
              rcases List.mem_cons.1 hbm with rfl | hbm'
              · exact hnb
              · exact hinv.2.1 b hbm',
            hinv.2.2⟩
        by_cases hini : board ^^^ m.all = INITIAL_BOARD
        · simp only [hini, if_true, Option.some.injEq, Prod.mk.injEq] at h
          obtain ⟨rfl, rfl⟩ := h
          rw [← hini]
          refine ⟨hinv1.1, hinv1.2.1, fun b hbm => ?_⟩
          rcases List.mem_append.1 hbm with hbm' | hbm'
          · exact hinv.2.2 b hbm'
          · rcases List.mem_singleton.1 hbm' with rfl
            exact hb
        · simp only [hini, if_false] at h
          rcases hd : deep (board ^^^ m.all) ⟨(board ^^^ m.all) :: st.seen, st.sol⟩
            with _ | ⟨b2, st2⟩
          · rw [hd] at h; simp at h
          · rw [hd] at h
            have hinv2 : SeenInv st2 := hdeep _ _ _ _ hd hnb hinv1
            cases b2 with
            | true =>
              simp only [Option.some.injEq, Prod.mk.injEq] at h
              obtain ⟨rfl, rfl⟩ := h
              refine ⟨hinv2.1, hinv2.2.1, fun b hbm => ?_⟩
              rcases List.mem_append.1 hbm with hbm' | hbm'
              · exact hinv2.2.2 b hbm'
              · rcases List.mem_singleton.1 hbm' with rfl
                exact hb
            | false =>
              exact ih hmsub board st2 r st' h hb hinv2
    · simp only [hleg, if_false, Bool.false_eq_true] at h
      exact ih hmsub board st r st' h hb hinv

/-- `SeenInv` preservation lifted to the fuelled search. -/
theorem searchFuel_inv (moves : List Move)
    (hm : ∀ m ∈ moves, m.all &&& VALID_BOARD_CELLS = m.all) :
    ∀ fuel board st r st', searchFuel moves fuel board st = some (r, st') →
      board &&& VALID_BOARD_CELLS = board → SeenInv st → SeenInv st' := by
  intro fuel
  induction fuel with
  | zero => intro board st r st' h; simp [searchFuel] at h
  | succ f ih =>
    intro board st r st' h hb hinv
    exact searchLoop_inv (searchFuel moves f) moves hm ih moves
      (fun x hx => hx) board st r st' h hb hinv

/-- Appending one more link at the end of a `Chain'`. -/
theorem chain'_snoc {R : Nat → Nat → Prop} {a : Nat} {l : List Nat} {b c : Nat}
    (h : List.Chain' R (a :: (l ++ [b]))) (hR : R b c) :
    List.Chain' R (a :: ((l ++ [b]) ++ [c])) := by
  have h2 : List.Chain' R ((a :: (l ++ [b])) ++ [c]) := by
    apply List.Chain'.append h (List.chain'_singleton c)
    intro x hx y hy
    simp only [List.head?_cons, Option.mem_def, Option.some.injEq] at hy
    subst hy
    rw [show a :: (l ++ [b]) = (a :: l) ++ [b] by simp, List.getLast?_concat,
      Option.mem_def, Option.some.injEq] at hx
    subst hx
    exact hR
  simpa using h2

/-- A successful loop call appends to the solution a reverse chain of boards
ending at the frame's own board: the appended tail read from left to right
descends from `INITIAL_BOARD` back to `board` by single reverse moves of the
table. -/
theorem searchLoop_success (deep : Nat → SearchState → Option (Bool × SearchState))
    (moves : List Move)
    (hdeep : ∀ b st st', deep b st = some (true, st') →
      ∃ mid, st'.sol = st.sol ++ mid ++ [b] ∧
        List.Chain' (StepBack moves) (INITIAL_BOARD :: (mid ++ [b])))
    (hdeepF : ∀ b st st', deep b st = some (false, st') → st'.sol = st.sol) :
    ∀ rem, rem ⊆ moves → ∀ board st st',
      searchLoop deep rem board st = some (true, st') →
      ∃ mid, st'.sol = st.sol ++ mid ++ [board] ∧
        List.Chain' (StepBack moves) (INITIAL_BOARD :: (mid ++ [board])) := by
  intro rem
  induction rem with
  | nil =>
    intro _ board st st' h
    simp [searchLoop] at h
  | cons m rest ih =>
    intro hsub board st st' h
    have hmsub : rest ⊆ moves := fun x hx => hsub (List.mem_cons_of_mem m hx)
    have hmm : m ∈ moves := hsub (List.mem_cons_self m rest)
    simp only [searchLoop] at h
    by_cases hleg : legalRev m board = true
    · simp only [hleg, if_true] at h
      by_cases hseen : st.seen.contains (board ^^^ m.all) = true
      · simp only [hseen, if_true] at h
        exact ih hmsub board st st' h
      · simp only [hseen, if_false, Bool.false_eq_true] at h
        by_cases hini : board ^^^ m.all = INITIAL_BOARD
        · simp only [hini, if_true, Option.some.injEq, Prod.mk.injEq, true_and] at h
          subst h
          refine ⟨[], by simp, ?_⟩
          exact List.chain'_cons.2
            ⟨⟨m, hmm, hleg, hini.symm⟩, List.chain'_singleton board⟩
        · simp only [hini, if_false] at h
          rcases hd : deep (board ^^^ m.all) ⟨(board ^^^ m.all) :: st.seen, st.sol⟩
            with _ | ⟨b2, st2⟩
          · rw [hd] at h; simp at h
          · rw [hd] at h
            cases b2 with
            | true =>
              simp only [Option.some.injEq, Prod.mk.injEq, true_and] at h
              subst h
              obtain ⟨mid2, hsol2, hchain2⟩ := hdeep _ _ _ hd
              refine ⟨mid2 ++ [board ^^^ m.all], ?_, ?_⟩
              · simp only [hsol2]; simp
              · exact chain'_snoc hchain2 ⟨m, hmm, hleg, rfl⟩
            | false =>
              have hsol2 : st2.sol = st.sol :=
                hdeepF (board ^^^ m.all)
                  ⟨(board ^^^ m.all) :: st.seen, st.sol⟩ st2 hd
              obtain ⟨mid, hsol, hchain⟩ := ih hmsub board st2 st' h
              exact ⟨mid, by rw [hsol, hsol2], hchain⟩
    · simp only [hleg, if_false, Bool.false_eq_true] at h
      exact ih hmsub board st st' h

/-- Success chain lifted to the fuelled search. -/
theorem searchFuel_success (moves : List Move) :
    ∀ fuel board st st', searchFuel moves fuel board st = some (true, st') →
      ∃ mid, st'.sol = st.sol ++ mid ++ [board] ∧
        List.Chain' (StepBack moves) (INITIAL_BOARD :: (mid ++ [board])) := by
  intro fuel
  induction fuel with
  | zero => intro board st st' h; simp [searchFuel] at h
  | succ f ih =>
    intro board st st' h
    exact searchLoop_success (searchFuel moves f) moves ih
      (fun b s s' hb => ((searchFuel_state moves f b s false s' hb).2.2) rfl)
      moves (fun x hx => hx) board st st' h

/-- The loop result is preserved when the recursive oracle is replaced by one
that agrees on everything the original answered. -/
theorem searchLoop_mono (deep deep' : Nat → SearchState → Option (Bool × SearchState))
    (hdeep : ∀ b st r, deep b st = some r → deep' b st = some r) :
    ∀ rem board st r, searchLoop deep rem board st = some r →
      searchLoop deep' rem board st = some r := by
  intro rem
  induction rem with
  | nil => intro board st r h; simpa [searchLoop] using h
  | cons m rest ih =>
    intro board st r h
    simp only [searchLoop] at h ⊢
    by_cases hleg : legalRev m board = true
    · simp only [hleg, if_true] at h ⊢
      by_cases hseen : st.seen.contains (board ^^^ m.all) = true
      · simp only [hseen, if_true] at h ⊢
        exact ih board st r h
      · simp only [hseen, if_false, Bool.false_eq_true] at h ⊢
        by_cases hini : board ^^^ m.all = INITIAL_BOARD
        · simpa only [hini, if_true] using h
        · simp only [hini, if_false] at h ⊢
          rcases hd : deep (board ^^^ m.all) ⟨(board ^^^ m.all) :: st.seen, st.sol⟩
            with _ | ⟨b2, st2⟩
          · rw [hd] at h; simp at h
          · rw [hd] at h
            rw [hdeep _ _ _ hd]
            cases b2 with
            | true => exact h
            | false => exact ih board st2 r h
    · simp only [hleg, if_false, Bool.false_eq_true] at h ⊢
      exact ih board st r h

/-- Fuel monotonicity: once the search completes within some depth budget, any
larger budget returns the identical result. -/
theorem searchFuel_mono (moves : List Move) :
    ∀ fuel fuel', fuel ≤ fuel' → ∀ board st r,
      searchFuel moves fuel board st = some r →
      searchFuel moves fuel' board st = some r := by
  intro fuel
  induction fuel with
  | zero => intro fuel' _ board st r h; simp [searchFuel] at h
  | succ f ih =>
    intro fuel' hle board st r h
    rcases fuel' with _ | f'
    · omega
    · exact searchLoop_mono (searchFuel moves f) (searchFuel moves f')
        (ih f' (Nat.le_of_succ_le_succ hle)) moves board st r h

/-- A nodup list of submasks of the valid cells has at most `2^49` entries. -/
theorem seen_length_le {l : List Nat} (hd : l.Nodup)
    (hb : ∀ b ∈ l, b &&& VALID_BOARD_CELLS = b) : l.length ≤ 2 ^ 49 := by
  classical
  have hsub : l.toFinset ⊆ Finset.range (2 ^ 49) := by
    intro x hx
    have hxl := List.mem_toFinset.1 hx
    have : x ≤ VALID_BOARD_CELLS := (hb x hxl) ▸ Nat.and_le_right
    exact Finset.mem_range.2 (lt_of_le_of_lt this (by norm_num [VALID_BOARD_CELLS]))
  have h1 : l.toFinset.card = l.length := List.toFinset_card_of_nodup hd
  have h2 := Finset.card_le_card hsub
  rw [h1, Finset.card_range] at h2
  exact h2

/-- Fuel adequacy: with the invariant in force, a depth budget exceeding the
number of boards not yet seen never runs out, because every recursive call is
made only on a board that was freshly inserted into the nodup seen list. -/
theorem searchFuel_adequate (moves : List Move)
    (hm : ∀ m ∈ moves, m.all &&& VALID_BOARD_CELLS = m.all) :
    ∀ fuel rem board st, rem ⊆ moves →
      board &&& VALID_BOARD_CELLS = board → SeenInv st →
      2 ^ 49 ≤ fuel + st.seen.length →
      (searchLoop (searchFuel moves fuel) rem board st).isSome = true := by
  intro fuel
  induction fuel with
  | zero =>
    intro rem
    induction rem with
    | nil => intro board st _ _ _ _; simp [searchLoop]
    | cons m rest ih =>
      intro board st hsub hb hinv hbudget
      have hmsub : rest ⊆ moves := fun x hx => hsub (List.mem_cons_of_mem m hx)
      have hmm : m ∈ moves := hsub (List.mem_cons_self m rest)
      simp only [searchLoop]
      by_cases hleg : legalRev m board = true
      · simp only [hleg, if_true]
        by_cases hseen : st.seen.contains (board ^^^ m.all) = true
        · simp only [hseen, if_true]
          exact ih board st hmsub hb hinv hbudget
        · exfalso
          have hnotmem : (board ^^^ m.all) ∉ st.seen := by
            simp at hseen; exact hseen
          have hnb : (board ^^^ m.all) &&& VALID_BOARD_CELLS = board ^^^ m.all :=
            and_valid_xor hb (hm m hmm)
          have hlen : ((board ^^^ m.all) :: st.seen).length ≤ 2 ^ 49 :=
            seen_length_le (List.nodup_cons.2 ⟨hnotmem, hinv.1⟩)
              (fun b hbm => by
                rcases List.mem_cons.1 hbm with rfl | hbm'
                · exact hnb
                · exact hinv.2.1 b hbm')
          simp only [List.length_cons] at hlen
          omega
      · simp only [hleg, if_false, Bool.false_eq_true]
        exact ih board st hmsub hb hinv hbudget
  | succ f ihf =>
    intro rem
    induction rem with
    | nil => intro board st _ _ _ _; simp [searchLoop]
    | cons m rest ih =>
      intro board st hsub hb hinv hbudget
      have hmsub : rest ⊆ moves := fun x hx => hsub (List.mem_cons_of_mem m hx)
      have hmm : m ∈ moves := hsub (List.mem_cons_self m rest)
      simp only [searchLoop]
      by_cases hleg : legalRev m board = true
      · simp only [hleg, if_true]
        by_cases hseen : st.seen.contains (board ^^^ m.all) = true
        · simp only [hseen, if_true]
          exact ih board st hmsub hb hinv hbudget
        · simp only [hseen, if_false, Bool.false_eq_true]
          have hnotmem : (board ^^^ m.all) ∉ st.seen := by
            simp at hseen; exact hseen
          have hnb : (board ^^^ m.all) &&& VALID_BOARD_CELLS = board ^^^ m.all :=
            and_valid_xor hb (hm m hmm)
          have hinv1 : SeenInv ⟨(board ^^^ m.all) :: st.seen, st.sol⟩ :=
            ⟨List.nodup_cons.2 ⟨hnotmem, hinv.1⟩,
              fun b hbm => by
                rcases List.mem_cons.1 hbm with rfl | hbm'
                · exact hnb
                · exact hinv.2.1 b hbm',
              hinv.2.2⟩
          by_cases hini : board ^^^ m.all = INITIAL_BOARD
          · simp [hini]
          · simp only [hini, if_false]
            have hdeep : (searchFuel moves (f + 1) (board ^^^ m.all)
                ⟨(board ^^^ m.all) :: st.seen, st.sol⟩).isSome = true := by
              show (searchLoop (searchFuel moves f) moves (board ^^^ m.all)
                ⟨(board ^^^ m.all) :: st.seen, st.sol⟩).isSome = true
              exact ihf moves (board ^^^ m.all)
                ⟨(board ^^^ m.all) :: st.seen, st.sol⟩ (fun x hx => hx)
                hnb hinv1 (by simp only [List.length_cons]; omega)
            rcases hd : searchFuel moves (f + 1) (board ^^^ m.all)
                ⟨(board ^^^ m.all) :: st.seen, st.sol⟩ with _ | ⟨b2, st2⟩
            · rw [hd] at hdeep; simp at hdeep
            · cases b2 with
              | true => simp
              | false =>
                have hinv2 : SeenInv st2 :=
                  searchFuel_inv moves hm (f + 1) (board ^^^ m.all)
                    ⟨(board ^^^ m.all) :: st.seen, st.sol⟩ false st2 hd hnb hinv1
                obtain ⟨⟨e, he⟩, _, _⟩ :=
                  searchFuel_state moves (f + 1) (board ^^^ m.all)
                    ⟨(board ^^^ m.all) :: st.seen, st.sol⟩ false st2 hd
                have hlen2 : st.seen.length + 1 ≤ st2.seen.length := by
                  have hlen := congrArg List.length he
                  simp only [List.length_append, List.length_cons] at hlen
                  omega
                exact ih board st2 hmsub hb hinv2 (by omega)
      · simp only [hleg, if_false, Bool.false_eq_true]
        exact ih board st hmsub hb hinv hbudget

/-- Popcount of zero. -/
theorem pegCountAux_zero : ∀ k, pegCountAux k 0 = 0
  | 0 => rfl
  | k + 1 => by simp [pegCountAux, pegCountAux_zero k]

/-- Accounting of bit 0 under XOR and AND. -/
theorem bit0_arith (x z : Nat) :
    (x ^^^ z) % 2 + 2 * ((x &&& z) % 2) = x % 2 + z % 2 := by
  have hxor := Nat.mod_two_eq_zero_or_one (x ^^^ z)
  have hand := Nat.mod_two_eq_zero_or_one (x &&& z)
  have hx := Nat.mod_two_eq_zero_or_one x
  have hz := Nat.mod_two_eq_zero_or_one z
  have h1 := Nat.xor_mod_two_eq_one (a := x) (b := z)
  have h2 := Nat.and_mod_two_eq_one (a := x) (b := z)
  omega

/-- Popcount splits over XOR with the overlap counted twice. -/
theorem pegCountAux_xor : ∀ k x z,
    pegCountAux k (x ^^^ z) + 2 * pegCountAux k (x &&& z) =
      pegCountAux k x + pegCountAux k z
  | 0, _, _ => by simp [pegCountAux]
  | k + 1, x, z => by
    simp only [pegCountAux]
    rw [Nat.xor_div_two, Nat.and_div_two]
    have ih := pegCountAux_xor k (x / 2) (z / 2)
    have hb := bit0_arith x z
    omega

/-- `pegCount` splits over XOR with the overlap counted twice. -/
theorem pegCount_xor (x z : Nat) :
    pegCount (x ^^^ z) + 2 * pegCount (x &&& z) = pegCount x + pegCount z :=
  pegCountAux_xor 64 x z

/-- A value below `2^k` with popcount 0 is zero. -/
theorem pegCountAux_eq_zero : ∀ k n, n < 2 ^ k → pegCountAux k n = 0 → n = 0
  | 0, n, hlt, _ => by omega
  | k + 1, n, hlt, h => by
    simp only [pegCountAux] at h
    have hd : n / 2 < 2 ^ k := by
      rw [pow_succ] at hlt; omega
    have := pegCountAux_eq_zero k (n / 2) hd (by omega)
    omega

/-- A value below `2^k` with popcount 1 is a power of two. -/
theorem pegCountAux_eq_one : ∀ k n, n < 2 ^ k → pegCountAux k n = 1 → ∃ a, n = 2 ^ a
  | 0, n, hlt, h => by simp [pegCountAux] at h
  | k + 1, n, hlt, h => by
    simp only [pegCountAux] at h
    have hd : n / 2 < 2 ^ k := by
      rw [pow_succ] at hlt; omega
    rcases Nat.mod_two_eq_zero_or_one n with hp | hp
    · rw [hp] at h
      obtain ⟨a, ha⟩ := pegCountAux_eq_one k (n / 2) hd (by omega)
      exact ⟨a + 1, by rw [pow_succ]; omega⟩
    · rw [hp] at h
      have := pegCountAux_eq_zero k (n / 2) hd (by omega)
      exact ⟨0, by simp; omega⟩

/-- A `uint64` value with popcount 1 is a single bit. -/
theorem pegCount_eq_one {n : Nat} (hlt : n < 2 ^ 64) (h : pegCount n = 1) :
    ∃ a, n = 2 ^ a :=
  pegCountAux_eq_one 64 n hlt h

/-- If some bit of `2^a &&& y` is set then bit `a` of `y` is set and the AND
is the full single bit. -/
theorem and_two_pow_of_ne_zero {y a : Nat} (h : 2 ^ a &&& y ≠ 0) :
    y &&& 2 ^ a = 2 ^ a := by
  have hya : y.testBit a = true := by
    by_contra hfalse
    rw [Bool.not_eq_true] at hfalse
    apply h
    apply Nat.eq_of_testBit_eq
    intro j
    simp only [Nat.testBit_and, Nat.zero_testBit, Nat.testBit_two_pow]
    rcases eq_or_ne a j with rfl | hne
    · simp [hfalse]
    · simp [hne]
  apply Nat.eq_of_testBit_eq
  intro i
  simp only [Nat.testBit_and, Nat.testBit_two_pow]
  rcases eq_or_ne a i with rfl | hne
  · simp [hya]
  · simp [hne]

/-- OR of disjoint masks equals their XOR. -/
theorem lor_eq_xor_of_disjoint {u v : Nat} (h : u &&& v = 0) :
    u ||| v = u ^^^ v := by
  apply Nat.eq_of_testBit_eq
  intro i
  have hi := congrArg (fun n => n.testBit i) h
  simp only [Nat.testBit_and, Nat.zero_testBit, Nat.testBit_or,
    Nat.testBit_xor] at hi ⊢
  revert hi
  cases u.testBit i <;> cases v.testBit i <;> decide

/-- Applying a legal reverse move (one peg removed at `after`, two added at
`before`) raises the peg count by exactly one. -/
theorem pegCount_step {m : Move} {y : Nat}
    (h1 : pegCount m.after = 1) (h2 : pegCount m.before = 2)
    (h3 : m.after &&& m.before = 0) (h4 : m.all = m.after ||| m.before)
    (hafter : m.after < 2 ^ 64) (hleg : legalRev m y = true) :
    pegCount (y ^^^ m.all) = pegCount y + 1 := by
  have hlegs : m.before &&& y = 0 ∧ ¬ m.after &&& y = 0 := by
    simpa [legalRev] using hleg
  obtain ⟨hby, hay⟩ := hlegs
  obtain ⟨a, ha⟩ := pegCount_eq_one hafter h1
  have hya : y &&& m.after = m.after := by
    rw [ha]
    exact and_two_pow_of_ne_zero (by rw [← ha]; exact hay)
  have hyall : y &&& m.all = m.after := by
    rw [h4, Nat.and_or_distrib_left, hya, Nat.and_comm y m.before, hby,
      Nat.or_zero]
  have hall : pegCount m.all = 3 := by
    have hx := pegCount_xor m.after m.before
    have hz : pegCount 0 = 0 := pegCountAux_zero 64
    rw [h3, hz, h1, h2] at hx
    rw [h4, lor_eq_xor_of_disjoint h3]
    omega
  have hx := pegCount_xor y m.all
  rw [hyall, h1] at hx
  omega

/-- Decidable wellformedness facts of every move in the generated table, used
by the structural lemmas below: single-bit `after`, two-bit `before`,
disjointness, `all` as their union with three bits, and all masks inside the
valid cells. -/
theorem moves_wf : ∀ m ∈ Moves, pegCount m.after = 1 ∧ pegCount m.before = 2 ∧
    m.after &&& m.before = 0 ∧ m.all = m.after ||| m.before ∧
    pegCount m.all = 3 ∧
    m.after &&& VALID_BOARD_CELLS = m.after ∧
    m.before &&& VALID_BOARD_CELLS = m.before ∧
    m.all &&& VALID_BOARD_CELLS = m.all := by decide

/-- Every mask of the table is a submask of `2^64`-bounded valid cells. -/
theorem moves_after_lt {m : Move} (hm : m ∈ Moves) : m.after < 2 ^ 64 := by
  have h5 := (moves_wf m hm).2.2.2.2.2.1
  have : m.after ≤ VALID_BOARD_CELLS := h5 ▸ Nat.and_le_right
  have hv : VALID_BOARD_CELLS < 2 ^ 64 := by norm_num [VALID_BOARD_CELLS]
  omega

/-- Along a solution chain the peg count drops by exactly one per entry. -/
theorem chain_pegCount {moves : List Move} (hmv : ∀ m ∈ moves, m ∈ Moves)
    {l : List Nat} (hc : List.Chain' (StepBack moves) l) :
    List.Chain' (fun x y => pegCount x = pegCount y + 1) l := by
  refine List.Chain'.imp ?_ hc
  intro x y hstep
  obtain ⟨m, hm, hleg, rfl⟩ := hstep
  obtain ⟨h1, h2, h3, h4, _⟩ := moves_wf m (hmv m hm)
  exact pegCount_step h1 h2 h3 h4 (moves_after_lt (hmv m hm)) hleg

/-- Along a solution chain every consecutive pair differs by the `all` mask
of some table move, hence in exactly three bit positions. -/
theorem chain_xor_mask {moves : List Move} (hmv : ∀ m ∈ moves, m ∈ Moves)
    {l : List Nat} (hc : List.Chain' (StepBack moves) l) :
    List.Chain' (fun x y =>
      ∃ m ∈ Moves, x ^^^ y = m.all ∧ pegCount (x ^^^ y) = 3) l := by
  refine List.Chain'.imp ?_ hc
  intro x y hstep
  obtain ⟨m, hm, _, rfl⟩ := hstep
  have hx : (y ^^^ m.all) ^^^ y = m.all := by
    rw [Nat.xor_comm y m.all, Nat.xor_cancel_right]
  exact ⟨m, hmv m hm, hx, by
    rw [hx]; exact (moves_wf m (hmv m hm)).2.2.2.2.1⟩

/-- A unit-descent chain relates its length to the peg counts of its first
and last entries. -/
theorem chain_length_pegCount : ∀ l : List Nat,
    List.Chain' (fun x y => pegCount x = pegCount y + 1) l →
    ∀ a b, l.head? = some a → l.getLast? = some b →
    pegCount a + 1 = l.length + pegCount b := by
  intro l
  induction l with
  | nil => intro _ a b ha _; simp at ha
  | cons x t ih =>
    intro hc a b ha hb
    simp only [List.head?_cons, Option.some.injEq] at ha
    subst ha
    cases t with
    | nil =>
      simp only [List.getLast?_singleton, Option.some.injEq] at hb
      subst hb
      simp only [List.length_singleton]
      omega
    | cons y t2 =>
      have h1 : pegCount x = pegCount y + 1 := (List.chain'_cons.1 hc).1
      have h2 := ih (List.chain'_cons.1 hc).2 y b rfl
        (by rw [← hb, List.getLast?_cons_cons])
      simp only [List.length_cons] at h2 ⊢
      omega

/-- AND distributes over XOR. -/
theorem xor_and_distrib (x y z : Nat) :
    (x ^^^ y) &&& z = (x &&& z) ^^^ (y &&& z) := by
  apply Nat.eq_of_testBit_eq
  intro i
  simp only [Nat.testBit_and, Nat.testBit_xor]
  cases x.testBit i <;> cases y.testBit i <;> cases z.testBit i <;> decide

/-- A submask of `v` is disjoint from anything disjoint from `v`. -/
theorem and_compl_eq_zero {b v c : Nat} (hb : b &&& v = b) (hvc : v &&& c = 0) :
    b &&& c = 0 := by
  apply Nat.eq_of_testBit_eq
  intro i
  have h1 := congrArg (fun n => n.testBit i) hb
  have h2 := congrArg (fun n => n.testBit i) hvc
  simp only [Nat.testBit_and, Nat.zero_testBit] at h1 h2 ⊢
  revert h1 h2
  cases b.testBit i <;> cases v.testBit i <;> cases c.testBit i <;> decide

/-- C1: whenever the search from `GOAL_BOARD` succeeds, the emitted solution
— seeded with `INITIAL_BOARD` and extended by one board per successful
return — begins with `INITIAL_BOARD`, ends with `GOAL_BOARD`, drops by
exactly one peg between consecutive entries, from 32 pegs down to 1, and
hence has exactly 32 entries. -/
theorem solution_path_spec (moves : List Move) (fuel : Nat) (st' : SearchState)
    (hmv : ∀ m ∈ moves, m ∈ Moves)
    (hrun : run moves fuel = some (true, st')) :
    st'.sol.head? = some INITIAL_BOARD ∧
    st'.sol.getLast? = some GOAL_BOARD ∧
    st'.sol.length = 32 ∧
    List.Chain' (fun x y => pegCount x = pegCount y + 1) st'.sol ∧
    pegCount INITIAL_BOARD = 32 ∧ pegCount GOAL_BOARD = 1 := by
  obtain ⟨mid, hsol, hchain⟩ :=
    searchFuel_success moves fuel GOAL_BOARD initState st' hrun
  have hsol' : st'.sol = INITIAL_BOARD :: (mid ++ [GOAL_BOARD]) := by
    rw [hsol]; rfl
  have hchain' : List.Chain' (StepBack moves) st'.sol := by
    rw [hsol']; exact hchain
  have hpc := chain_pegCount hmv hchain'
  have hhead : st'.sol.head? = some INITIAL_BOARD := by rw [hsol']; rfl
  have hlast : st'.sol.getLast? = some GOAL_BOARD := by
    rw [hsol', show INITIAL_BOARD :: (mid ++ [GOAL_BOARD]) =
      (INITIAL_BOARD :: mid) ++ [GOAL_BOARD] by simp, List.getLast?_concat]
  have hI : pegCount INITIAL_BOARD = 32 := by decide
  have hG : pegCount GOAL_BOARD = 1 := by decide
  have hlen := chain_length_pegCount st'.sol hpc INITIAL_BOARD GOAL_BOARD
    hhead hlast
  exact ⟨hhead, hlast, by omega, hpc, hI, hG⟩

/-- Witness for C1: a concrete successful run on a sublist of the table. -/
theorem solution_path_spec_witness :
    (∀ m ∈ wmoves, m ∈ Moves) ∧
    ∃ st', run wmoves 40 = some (true, st') ∧ st'.sol.length = 32 ∧
      st'.sol.head? = some INITIAL_BOARD ∧
      st'.sol.getLast? = some GOAL_BOARD := by
  have hb : (run wmoves 40).map (fun r => r.1) = some true := by decide
  have hmv : ∀ m ∈ wmoves, m ∈ Moves := by decide
  rcases hr : run wmoves 40 with _ | ⟨b, st⟩
  · rw [hr] at hb; simp at hb
  · rw [hr] at hb
    simp only [Option.map_some', Option.some.injEq] at hb
    subst hb
    obtain ⟨h1, h2, h3, _⟩ := solution_path_spec wmoves 40 st hmv hr
    exact ⟨hmv, st, rfl, h3, h1, h2⟩

/-- C2: every consecutive pair of a produced solution differs by the `all`
mask of some move of the generated table, i.e. in exactly three bit
positions. -/
theorem solution_transitions_spec (moves : List Move) (fuel : Nat)
    (st' : SearchState) (hmv : ∀ m ∈ moves, m ∈ Moves)
    (hrun : run moves fuel = some (true, st')) :
    List.Chain' (fun prev next => ∃ m ∈ Moves,
      prev ^^^ next = m.all ∧ pegCount (prev ^^^ next) = 3) st'.sol := by
  obtain ⟨mid, hsol, hchain⟩ :=
    searchFuel_success moves fuel GOAL_BOARD initState st' hrun
  have hchain' : List.Chain' (StepBack moves) st'.sol := by
    rw [show st'.sol = INITIAL_BOARD :: (mid ++ [GOAL_BOARD]) by rw [hsol]; rfl]
    exact hchain
  exact chain_xor_mask hmv hchain'

/-- Witness for C2: the same concrete successful run. -/
theorem solution_transitions_spec_witness :
    (∀ m ∈ wmoves, m ∈ Moves) ∧
    ∃ st', run wmoves 40 = some (true, st') ∧
      List.Chain' (fun prev next => ∃ m ∈ Moves,
        prev ^^^ next = m.all ∧ pegCount (prev ^^^ next) = 3) st'.sol := by
  have hb : (run wmoves 40).map (fun r => r.1) = some true := by decide
  have hmv : ∀ m ∈ wmoves, m ∈ Moves := by decide
  rcases hr : run wmoves 40 with _ | ⟨b, st⟩
  · rw [hr] at hb; simp at hb
  · rw [hr] at hb
    simp only [Option.map_some', Option.some.injEq] at hb
    subst hb
    exact ⟨hmv, st, rfl, solution_transitions_spec wmoves 40 st hmv hr⟩

/-- C3: a move is applied by the search exactly when
`(move.before & board) == 0 && (move.after & board) != 0`; an illegal move is
skipped, and an applied move's successor `board ^ move.all` clears the single
`after` bit, sets the two `before` bits, and leaves every bit outside
`move.all` unchanged. -/
theorem reverse_move_semantics (m : Move) (board : Nat) (hm : m ∈ Moves) :
    (legalRev m board = true ↔
      (m.before &&& board = 0 ∧ m.after &&& board ≠ 0)) ∧
    (∀ deep rest st, legalRev m board = false →
      searchLoop deep (m :: rest) board st = searchLoop deep rest board st) ∧
    (legalRev m board = true →
      (board ^^^ m.all) &&& m.after = 0 ∧
      (board ^^^ m.all) &&& m.before = m.before ∧
      (∀ i, m.all.testBit i = false →
        (board ^^^ m.all).testBit i = board.testBit i)) := by
  obtain ⟨h1, _, h3, h4, _⟩ := moves_wf m hm
  refine ⟨by simp [legalRev], ?_, ?_⟩
  · intro deep rest st hneg
    simp [searchLoop, hneg]
  · intro hleg
    have hlegs : m.before &&& board = 0 ∧ ¬ m.after &&& board = 0 := by
      simpa [legalRev] using hleg
    obtain ⟨hbb, hab⟩ := hlegs
    obtain ⟨a, ha⟩ := pegCount_eq_one (moves_after_lt hm) h1
    have hba : board &&& m.after = m.after := by
      rw [ha]
      exact and_two_pow_of_ne_zero (by rw [← ha]; exact hab)
    have hall_after : m.all &&& m.after = m.after := by
      rw [h4, Nat.and_comm (m.after ||| m.before) m.after,
        Nat.and_or_distrib_left, Nat.and_self, h3, Nat.or_zero]
    have hall_before : m.all &&& m.before = m.before := by
      rw [h4, Nat.and_comm (m.after ||| m.before) m.before,
        Nat.and_or_distrib_left, Nat.and_comm m.before m.after, h3,
        Nat.and_self, Nat.zero_or]
    refine ⟨?_, ?_, ?_⟩
    · rw [xor_and_distrib, hba, hall_after, Nat.xor_self]
    · rw [xor_and_distrib, Nat.and_comm board m.before, hbb, hall_before,
        Nat.zero_xor]
    · intro i hi
      simp [Nat.testBit_xor, hi]

/-- Witness for C3 at the first generated move and a board holding only the
peg the move removes. -/
theorem reverse_move_semantics_witness :
    (legalRev (Move.mk 4 24 28) 4 = true ↔
      ((Move.mk 4 24 28).before &&& 4 = 0 ∧
        (Move.mk 4 24 28).after &&& 4 ≠ 0)) ∧
    (∀ deep rest st, legalRev (Move.mk 4 24 28) 4 = false →
      searchLoop deep (Move.mk 4 24 28 :: rest) 4 st =
        searchLoop deep rest 4 st) ∧
    (legalRev (Move.mk 4 24 28) 4 = true →
      (4 ^^^ (Move.mk 4 24 28).all) &&& (Move.mk 4 24 28).after = 0 ∧
      (4 ^^^ (Move.mk 4 24 28).all) &&& (Move.mk 4 24 28).before =
        (Move.mk 4 24 28).before ∧
      (∀ i, (Move.mk 4 24 28).all.testBit i = false →
        (4 ^^^ (Move.mk 4 24 28).all).testBit i = (4 : Nat).testBit i)) :=
  reverse_move_semantics ⟨4, 24, 28⟩ 4 (by decide)

/-- C4: every board inserted into the seen set by a search from `GOAL_BOARD`
— and every board of the emitted solution — is a submask of the valid cells,
disjoint from the 49-bit complement of the valid cells and below `2^49`;
this rests on every generated move mask lying inside the valid cells. -/
theorem reachable_boards_valid (moves : List Move) (fuel : Nat) (r : Bool)
    (st' : SearchState) (hmv : ∀ m ∈ moves, m ∈ Moves)
    (hrun : run moves fuel = some (r, st')) :
    (∀ m ∈ Moves, m.all &&& VALID_BOARD_CELLS = m.all) ∧
    GOAL_BOARD &&& VALID_BOARD_CELLS = GOAL_BOARD ∧
    (∀ b ∈ st'.seen, b &&& VALID_BOARD_CELLS = b ∧
      b &&& ((2 ^ 49 - 1) ^^^ VALID_BOARD_CELLS) = 0 ∧ b < 2 ^ 49) ∧
    (∀ b ∈ st'.sol, b &&& VALID_BOARD_CELLS = b ∧
      b &&& ((2 ^ 49 - 1) ^^^ VALID_BOARD_CELLS) = 0 ∧ b < 2 ^ 49) := by
  have hmasks : ∀ m ∈ Moves, m.all &&& VALID_BOARD_CELLS = m.all :=
    fun m hm => (moves_wf m hm).2.2.2.2.2.2.2
  have hinv : SeenInv st' :=
    searchFuel_inv moves (fun m hm => hmasks m (hmv m hm)) fuel GOAL_BOARD
      initState r st' hrun (by decide)
      ⟨by simp [initState], by simp [initState], by
        intro b hb
        simp only [initState, List.mem_singleton] at hb
        subst hb
        decide⟩
  have hcompl : VALID_BOARD_CELLS &&& ((2 ^ 49 - 1) ^^^ VALID_BOARD_CELLS) = 0 := by
    decide
  have hstep : ∀ b, b &&& VALID_BOARD_CELLS = b →
      b &&& VALID_BOARD_CELLS = b ∧
      b &&& ((2 ^ 49 - 1) ^^^ VALID_BOARD_CELLS) = 0 ∧ b < 2 ^ 49 := by
    intro b hb
    have hle : b ≤ VALID_BOARD_CELLS := hb ▸ Nat.and_le_right
    exact ⟨hb, and_compl_eq_zero hb hcompl,
      lt_of_le_of_lt hle (by norm_num [VALID_BOARD_CELLS])⟩
  exact ⟨hmasks, by decide, fun b hb => hstep b (hinv.2.1 b hb),
    fun b hb => hstep b (hinv.2.2 b hb)⟩

/-- Witness for C4 at the empty move list, whose search fails immediately
leaving the seeded state. -/
theorem reachable_boards_valid_witness :
    (∀ m ∈ Moves, m.all &&& VALID_BOARD_CELLS = m.all) ∧
    GOAL_BOARD &&& VALID_BOARD_CELLS = GOAL_BOARD ∧
    (∀ b ∈ initState.seen, b &&& VALID_BOARD_CELLS = b ∧
      b &&& ((2 ^ 49 - 1) ^^^ VALID_BOARD_CELLS) = 0 ∧ b < 2 ^ 49) ∧
    (∀ b ∈ initState.sol, b &&& VALID_BOARD_CELLS = b ∧
      b &&& ((2 ^ 49 - 1) ^^^ VALID_BOARD_CELLS) = 0 ∧ b < 2 ^ 49) :=
  reachable_boards_valid [] 1 false initState (by decide) (by decide)

/-- C7: the recursive search from `GOAL_BOARD` terminates for every
permutation of the generated move table: any depth budget beyond the number
of distinct board values is never exhausted, because each recursive call is
made only on a board freshly inserted into the monotonically growing nodup
seen set and there are finitely many board values. -/
theorem search_terminates (moves : List Move) (hperm : moves.Perm Moves)
    (fuel : Nat) (hfuel : 2 ^ 49 < fuel) :
    (run moves fuel).isSome = true := by
  have hmv : ∀ m ∈ moves, m ∈ Moves := fun m hm => hperm.mem_iff.1 hm
  have hmasks : ∀ m ∈ moves, m.all &&& VALID_BOARD_CELLS = m.all :=
    fun m hm => (moves_wf m (hmv m hm)).2.2.2.2.2.2.2
  rcases fuel with _ | f
  · omega
  · show (searchLoop (searchFuel moves f) moves GOAL_BOARD initState).isSome = true
    apply searchFuel_adequate moves hmasks f moves GOAL_BOARD initState
      (fun x hx => hx) (by decide)
      ⟨by simp [initState], by simp [initState], by
        intro b hb
        simp only [initState, List.mem_singleton] at hb
        subst hb
        decide⟩
      (by simp only [initState]; simp; omega)

/-- Witness for C7 at the unshuffled table and the first adequate budget. -/
theorem search_terminates_witness :
    (run Moves (2 ^ 49 + 1)).isSome = true :=
  search_terminates Moves (List.Perm.refl Moves) (2 ^ 49 + 1) (by omega)

/-- Counterexample to C8 as stated: with an empty move table the search
exhausts immediately and returns `false` with the solution still the seeded
`[INITIAL_BOARD]`, yet `main` does not check the boolean result: it goes on
to print the solution slice (the printed sequence is `some [INITIAL_BOARD]`,
not a no-solution report). -/
theorem caller_ignores_result_counterexample :
    run [] 1 = some (false, initState) ∧
    mainPrinted [] 1 = some [INITIAL_BOARD] ∧
    mainPrinted [] 1 ≠ none := by
  refine ⟨rfl, rfl, ?_⟩
  intro h
  simp [mainPrinted, run, searchFuel, searchLoop, initState] at h

/-- C8 amended: an exhausted search returns `false` having appended nothing,
so the solution still holds only the seeded initial entry; the caller ignores
the boolean result and prints the slice unconditionally, which in this case
accesses only index 0 and does not crash. -/
theorem search_exhaustion_amended (moves : List Move) (fuel : Nat)
    (st' : SearchState) (hrun : run moves fuel = some (false, st')) :
    st'.sol = [INITIAL_BOARD] ∧
    mainPrinted moves fuel = some [INITIAL_BOARD] ∧
    ∀ j ∈ printAccesses st'.sol.length, j < st'.sol.length := by
  have hsol : st'.sol = [INITIAL_BOARD] :=
    (searchFuel_state moves fuel GOAL_BOARD initState false st' hrun).2.2 rfl
  refine ⟨hsol, ?_, ?_⟩
  · simp only [mainPrinted, hrun, hsol]
  · rw [hsol]
    decide

/-- Witness for C8's amended statement at the empty move table. -/
theorem search_exhaustion_amended_witness :
    initState.sol = [INITIAL_BOARD] ∧
    mainPrinted [] 1 = some [INITIAL_BOARD] ∧
    ∀ j ∈ printAccesses initState.sol.length, j < initState.sol.length :=
  search_exhaustion_amended [] 1 initState (by decide)

/-- C9: the fuelled search is deterministic — two completed runs over the
identical move ordering return the identical boolean result and the
identical final state (in particular the identical solution sequence),
whatever depth budgets sufficed. -/
theorem search_deterministic (moves : List Move) (f1 f2 : Nat)
    (r1 r2 : Bool × SearchState)
    (h1 : run moves f1 = some r1) (h2 : run moves f2 = some r2) :
    r1 = r2 := by
  rcases le_total f1 f2 with h | h
  · have hmono := searchFuel_mono moves f1 f2 h GOAL_BOARD initState r1 h1
    rw [run] at h2
    rw [hmono] at h2
    exact Option.some.inj h2
  · have hmono := searchFuel_mono moves f2 f1 h GOAL_BOARD initState r2 h2
    rw [run] at h1
    rw [hmono] at h1
    exact (Option.some.inj h1).symm

/-- Witness for C9: two concrete completed runs with different budgets. -/
theorem search_deterministic_witness :
    ∃ r1 r2, run wmoves 40 = some r1 ∧ run wmoves 41 = some r2 ∧ r1 = r2 := by
  have h1 : (run wmoves 40).isSome = true := by decide
  have h2 : (run wmoves 41).isSome = true := by decide
  rcases hr1 : run wmoves 40 with _ | r1
  · rw [hr1] at h1; simp at h1
  · rcases hr2 : run wmoves 41 with _ | r2
    · rw [hr2] at h2; simp at h2
    · exact ⟨r1, r2, rfl, rfl,
        search_deterministic wmoves 40 41 r1 r2 hr1 hr2⟩

/-- Every index the inner row loop passes to `printLine` is in bounds when
the block start index is. -/
theorem rowAccess_bound (n i : Nat) : ∀ cnt k, i + k < n →
    ∀ j ∈ (rowAccess n i k cnt).1, j < n := by
  intro cnt
  induction cnt with
  | zero => intro k _ j hj; simp [rowAccess] at hj
  | succ c ih =>
    intro k hk j hj
    by_cases hbr : i + k = n - 1
    · simp only [rowAccess, hbr, if_pos] at hj
      simp only [List.mem_singleton] at hj
      omega
    · simp only [rowAccess, hbr, if_false, List.mem_cons] at hj
      rcases hj with rfl | hj
      · omega
      · exact ih (k + 1) (by omega) j hj

/-- The final loop counter of a row strictly exceeds its initial value when
at least one iteration remains. -/
theorem rowAccess_k_lt (n i : Nat) : ∀ cnt k, 1 ≤ cnt →
    k < (rowAccess n i k cnt).2 := by
  intro cnt
  induction cnt with
  | zero => intro k h; omega
  | succ c ih =>
    intro k _
    by_cases hbr : i + k = n - 1
    · simp [rowAccess, hbr]
    · simp only [rowAccess, hbr, if_false]
      rcases c with _ | c'
      · simp [rowAccess]
      · have := ih (k + 1) (by omega)
        omega

/-- Every index the outer loop passes to `printLine` is in bounds, for any
iteration budget. -/
theorem solAccess_bound (n : Nat) : ∀ f i, ∀ j ∈ solAccess n f i, j < n := by
  intro f
  induction f with
  | zero => intro i j hj; simp [solAccess] at hj
  | succ f ih =>
    intro i j hj
    by_cases hi : i < n
    · simp only [solAccess, hi, if_pos, List.mem_append] at hj
      rcases hj with hj | hj
      · exact rowAccess_bound n i 16 0 (by omega) j hj
      · exact ih _ j hj
    · simp [solAccess, hi] at hj

/-- Beyond `n - i` outer iterations the access list is stable, since each
iteration advances the index by at least one. -/
theorem solAccess_fuel (n : Nat) : ∀ f i, n ≤ i + f →
    solAccess n f i = solAccess n (f + 1) i := by
  intro f
  induction f with
  | zero =>
    intro i hi
    have hni : ¬ i < n := by omega
    simp [solAccess, hni]
  | succ f ih =>
    intro i hi
    by_cases hind : i < n
    · have hk := rowAccess_k_lt n i 16 0 (by omega)
      have hrec := ih (i + (rowAccess n i 0 16).2) (by omega)
      show (if i < n then
            (rowAccess n i 0 16).1 ++ solAccess n f (i + (rowAccess n i 0 16).2)
          else []) =
        (if i < n then
            (rowAccess n i 0 16).1 ++
              solAccess n (f + 1) (i + (rowAccess n i 0 16).2)
          else [])
      rw [if_pos hind, if_pos hind, hrec]
    · simp [solAccess, hind]

/-- The `n`-iteration budget of the model is exact: any larger budget yields
the same access list. -/
theorem printAccesses_fuel (n : Nat) : ∀ f, n ≤ f →
    solAccess n f 0 = printAccesses n := by
  intro f
  induction f with
  | zero =>
    intro h
    have hz : n = 0 := by omega
    subst hz
    rfl
  | succ f ih =>
    intro h
    rcases Nat.lt_or_ge f n with hlt | hge
    · have he : n = f + 1 := by omega
      rw [printAccesses, he]
    · rw [← solAccess_fuel n f 0 (by omega), ih hge]

/-- C10: for a solution slice of any length at least 1 (length 1 after
exhaustion, 32 after success), the printing loops of `main` index the slice
only at positions `0` through `length - 1`; the outer iteration budget of
the model is stable, i.e. the loop really visits every block. -/
theorem print_accesses_in_bounds (n : Nat) (_hn : 1 ≤ n) :
    (∀ j ∈ printAccesses n, j < n) ∧
    ∀ f, n ≤ f → solAccess n f 0 = printAccesses n :=
  ⟨fun j hj => solAccess_bound n n 0 j hj, printAccesses_fuel n⟩

/-- Witness for C10 at the successful-run length 32. -/
theorem print_accesses_in_bounds_witness :
    1 ≤ 32 ∧ ((∀ j ∈ printAccesses 32, j < 32) ∧
      ∀ f, 32 ≤ f → solAccess 32 f 0 = printAccesses 32) :=
  ⟨by decide, print_accesses_in_bounds 32 (by decide)⟩
